import Mathlib

/-!
# Verification of the incremental knowledge-base ingestion pipeline

Shallow embedding of `examples/knowledgebase/ingest.py`, `reingest.py`
(and the shared chunker) from the graphiti repository.

Modelling conventions:
* Python strings are sequences of Unicode code points; we model text as
  `List Char` (so `len` is `List.length`, matching Python code-point counts).
* `str.strip()` is modelled by `pyStrip`, stripping the ASCII whitespace
  characters relevant to text documents (space, tab, newline, carriage
  return, vertical tab, form feed).
* `content.split('\n\n')` is `pySplit2NL`: Python splits on consecutive
  non-overlapping occurrences of the exact two-character separator,
  scanned left to right.
* The MD5 hex digest used as a chunk's cache key is modelled by keying on
  the exact trimmed content itself: the digest is a deterministic function
  of the content and serves purely as identity, so an injective key
  preserves all the behaviour the claims are about.
* The persisted JSON cache is modelled by the inductive `JVal`; Python
  dicts become ordered association lists (insertion order preserved, as
  in CPython).
* Effects (file state, the Neo4j connection, per-episode success) are
  passed explicitly to the orchestrator function `reingestRun`, which
  mirrors the control flow of `reingest_text_file` including exception
  propagation (an uncaught exception aborts the run before `save_cache`).
-/

set_option linter.unusedVariables false
set_option maxRecDepth 40000

namespace KB

/-- Whitespace characters stripped by Python's `str.strip()`
(restricted to the ASCII whitespace characters). -/
def pyWS (c : Char) : Bool :=
  c = ' ' || c = '\t' || c = '\n' || c = '\r' || c = '\x0b' || c = '\x0c'

/-- Python `s.strip()` on a list of characters: drop leading and trailing
whitespace. -/
def pyStrip (s : List Char) : List Char :=
  ((s.dropWhile pyWS).reverse.dropWhile pyWS).reverse

/-- The two-character paragraph separator `"\n\n"`. -/
def nl2 : List Char := ['\n', '\n']

/-- Python `content.split('\n\n')`: split on consecutive non-overlapping
occurrences of the exact two-newline separator, scanned left to right.
`"".split('\n\n') = ['']`, so the empty input yields `[[]]`. -/
def pySplit2NL : List Char → List (List Char)
  | [] => [[]]
  | [c] => [[c]]
  | c :: d :: rest =>
    if c = '\n' ∧ d = '\n' then
      [] :: pySplit2NL rest
    else
      match pySplit2NL (d :: rest) with
      | [] => [[c]]
      | p :: ps => (c :: p) :: ps

/-- `paragraphs = [p for p in content.split('\n\n') if p.strip()]`
(reingest.py line 64 / ingest.py line 63). -/
def paragraphs (content : List Char) : List (List Char) :=
  (pySplit2NL content).filter (fun p => pyStrip p ≠ [])

/-- A chunk as produced by `parse_text_file`: 1-based chunk number and the
stripped content.  The MD5 cache key is modelled by the content itself. -/
structure Chunk where
  chunk_number : Nat
  content : List Char
  deriving DecidableEq, Repr

/-- The cache key (`hashlib.md5(content).hexdigest()` in the source),
modelled injectively by the trimmed content it digests. -/
def Chunk.hash (c : Chunk) : List Char := c.content

/-- The paragraph-accumulation loop of `parse_text_file`
(reingest.py lines 68-93): greedily grow `cur`; before adding a paragraph,
if the buffer is non-empty and `len(cur) + len(p) > 1000`, close the
buffer out as a chunk (content stripped) and restart the buffer with just
that paragraph; at the end, flush any non-empty buffer. -/
def chunkLoop : List (List Char) → List Char → Nat → List Chunk
  | [], cur, n => if cur = [] then [] else [⟨n, pyStrip cur⟩]
  | p :: ps, cur, n =>
    if 1000 < cur.length + p.length ∧ cur ≠ [] then
      ⟨n, pyStrip cur⟩ :: chunkLoop ps p (n + 1)
    else
      chunkLoop ps (if cur = [] then p else cur ++ nl2 ++ p) n

/-- `parse_text_file` on the already-read file contents: split into
paragraphs, then aggregate into chunks with the soft threshold 1000. -/
def parse_text_file (content : List Char) : List Chunk :=
  chunkLoop (paragraphs content) [] 1

/-! ## The persisted JSON cache (`load_cache` / `save_cache`) -/

/-- JSON-like values, as far as the cache file needs them.  Python dicts
are ordered association lists (CPython preserves insertion order). -/
inductive JVal where
  | obj : List (List Char × JVal) → JVal
  | str : List Char → JVal
  | num : Nat → JVal

/-- Lookup in an ordered association list (Python `d[k]` / `k in d`). -/
def jLookup : List (List Char × JVal) → List Char → Option JVal
  | [], _ => none
  | (k, v) :: rest, key => if k = key then some v else jLookup rest key

/-- Python `d[k] = v`: replace in place if the key is present, otherwise
append at the end (insertion order). -/
def jSetAssoc : List (List Char × JVal) → List Char → JVal → List (List Char × JVal)
  | [], k, v => [(k, v)]
  | (k', v') :: rest, k, v =>
    if k' = k then (k, v) :: rest else (k', v') :: jSetAssoc rest k v

/-- The top-level key of the cache file. -/
def chunksKey : List Char := ['c', 'h', 'u', 'n', 'k', 's']

/-- The empty cache object written as a literal in the source:
`{"chunks": {}}`. -/
def emptyCacheJ : JVal := .obj [(chunksKey, .obj [])]

/-- State of the cache file on disk as seen by `load_cache`: absent, or
present with the result of `json.load` (`none` = `JSONDecodeError`). -/
inductive CacheFile where
  | missing
  | present (parsed : Option JVal)

/-- `load_cache` (reingest.py lines 120-138): a missing file or a file
whose contents fail to parse yields the literal `{"chunks": {}}`; a file
that parses is returned as-is, with no shape validation. -/
def load_cache : CacheFile → JVal
  | .missing => emptyCacheJ
  | .present none => emptyCacheJ
  | .present (some j) => j

/-- Python exception kinds that the orchestrator can raise. -/
inductive PyErr where
  | valueError | keyError | typeError | connectionError | submissionError
  deriving DecidableEq, Repr

/-- Evaluate `cache["chunks"]` and demand a dict, as the diff loop's
membership test and item assignment do.  A missing key raises `KeyError`;
a non-dict cache or non-dict `"chunks"` value fails with a `TypeError` at
the subscript or the entry assignment (modelled uniformly; the anomalous
case of a string-valued `"chunks"`, where Python's `in` is a substring
test, is outside every claim). -/
def jGetChunks : JVal → Except PyErr (List (List Char × JVal))
  | .obj fields =>
    match jLookup fields chunksKey with
    | none => .error .keyError
    | some (.obj m) => .ok m
    | some _ => .error .typeError
  | _ => .error .typeError

/-- Write an updated `"chunks"` dict back into the cache object
(Python mutates the inner dict in place, leaving every other top-level
key of the loaded file untouched). -/
def jSetChunks (cache : JVal) (m : List (List Char × JVal)) : JVal :=
  match cache with
  | .obj fields => .obj (jSetAssoc fields chunksKey (.obj m))
  | j => j

/-- The cache entry stored for a newly seen chunk
(reingest.py lines 192-195); `ts` is `datetime.now().isoformat()`. -/
def entryFor (c : Chunk) (ts : List Char) : JVal :=
  .obj [(['c','h','u','n','k','_','n','u','m','b','e','r'], .num c.chunk_number),
        (['l','a','s','t','_','i','n','g','e','s','t','e','d'], .str ts)]

/-- The cache-comparison loop (reingest.py lines 187-195): for each chunk,
if its hash is not a key of `cache["chunks"]`, append it to the new-chunk
list and insert a fresh entry into the cache (so a later duplicate in the
same run is found in the cache and skipped). -/
def diffLoop (cache : JVal) (ts : List Char) : List Chunk → Except PyErr (List Chunk × JVal)
  | [] => .ok ([], cache)
  | c :: cs =>
    match jGetChunks cache with
    | .error e => .error e
    | .ok m =>
      if (jLookup m c.hash).isSome then
        diffLoop cache ts cs
      else
        match diffLoop (jSetChunks cache (jSetAssoc m c.hash (entryFor c ts))) ts cs with
        | .error e => .error e
        | .ok (ns, cache') => .ok (c :: ns, cache')

/-! ## Configuration and the orchestrator -/

/-- The three connection parameters as present/absent environment
variables (`os.environ.get` with a default). -/
structure Env where
  uri : Option String
  user : Option String
  password : Option String

def defaultUri : String := "bolt://10.1.1.144:7687"
def defaultUser : String := "neo4j"
def defaultPassword : String := "password"

def neo4jUri (e : Env) : String := e.uri.getD defaultUri
def neo4jUser (e : Env) : String := e.user.getD defaultUser
def neo4jPassword (e : Env) : String := e.password.getD defaultPassword

/-- The configuration check (reingest.py lines 171-172 / ingest.py lines
115-116): `if not uri or not user or not password: raise ValueError`.
A Python string is falsy exactly when it is empty. -/
def configOk (e : Env) : Bool :=
  !(neo4jUri e == "") && !(neo4jUser e == "") && !(neo4jPassword e == "")

/-- The sequential episode-submission loop (reingest.py lines 218-225 /
ingest.py lines 142-149).  `epOk i` says whether the `i`-th `add_episode`
call succeeds; `now` is the run-start instant in seconds.  The `i`-th
submitted chunk gets `reference_time = now + i * 10` seconds.  An episode
failure raises, aborting the loop: the result is the successfully
submitted prefix paired with `false`. -/
def submitLoop (epOk : Nat → Bool) (now : Int) : List Chunk → Nat → List (Int × Chunk) × Bool
  | [], _ => ([], true)
  | c :: cs, i =>
    if epOk i then
      let r := submitLoop epOk now cs (i + 1)
      ((now + 10 * (i : Int), c) :: r.1, r.2)
    else
      ([], false)

/-- Observable outcome of one orchestrator run: the episodes that reached
the graph engine (reference time and chunk), the cache contents written
by `save_cache` (if reached), and the exception the run raised, if any. -/
structure RunOut where
  submitted : List (Int × Chunk)
  persisted : Option JVal
  err : Option PyErr

/-- `reingest_text_file` (reingest.py lines 153-237), with effects passed
explicitly: the document contents, the on-disk cache file state, whether
connecting/schema-building succeeds, per-episode success, the run-start
instant and the `last_ingested` timestamp string.  Control flow follows
the source: config check, parse, cache load, diff; early successful
return when nothing changed (the engine is never contacted); otherwise
connect, submit sequentially, and only after every episode succeeded is
the updated cache saved.  Any exception propagates (the `finally` block
only closes the connection), so a failed run persists nothing. -/
def reingestRun (env : Env) (content : List Char) (file : CacheFile)
    (connectOk : Bool) (epOk : Nat → Bool) (now : Int) (ts : List Char) : RunOut :=
  if configOk env then
    match diffLoop (load_cache file) ts (parse_text_file content) with
    | .error e => ⟨[], none, some e⟩
    | .ok (news, cache') =>
      if news = [] then ⟨[], none, none⟩
      else if connectOk then
        if (submitLoop epOk now news 0).2 then
          ⟨(submitLoop epOk now news 0).1, some cache', none⟩
        else
          ⟨(submitLoop epOk now news 0).1, none, some .submissionError⟩
      else ⟨[], none, some .connectionError⟩
  else ⟨[], none, some .valueError⟩

/-- `ingest_text_file` (ingest.py lines 96-158): no cache; config check,
connect (the `Graphiti` handle and index build precede parsing in this
file), parse, submit every chunk sequentially with the same
reference-time policy. -/
def ingestRun (env : Env) (content : List Char) (clearExisting : Bool)
    (connectOk : Bool) (epOk : Nat → Bool) (now : Int) : RunOut :=
  if configOk env then
    if connectOk then
      if (submitLoop epOk now (parse_text_file content) 0).2 then
        ⟨(submitLoop epOk now (parse_text_file content) 0).1, none, none⟩
      else
        ⟨(submitLoop epOk now (parse_text_file content) 0).1, none, some .submissionError⟩
    else ⟨[], none, some .connectionError⟩
  else ⟨[], none, some .valueError⟩

/-! ## Joining and the spec-side splitter -/

/-- Join a list of texts with a separator (`sep.join(parts)`): used to
state reconstruction of a document from its paragraphs or chunks. -/
def joinSep (sep : List Char) : List (List Char) → List Char
  | [] => []
  | [p] => p
  | p :: q :: ps => p ++ sep ++ joinSep sep (q :: ps)

/-- Modelled from the spec: state of the run-splitter — the text still to
scan, the paragraph built so far, and the length of the newline run not
yet resolved.  A run of two or more newlines is a separator and is
consumed whole; a single newline stays inside the paragraph. -/
def specSplitGo : List Char → List Char → Nat → List (List Char)
  | [], cur, pending =>
    if 2 ≤ pending then [cur, []] else [cur ++ List.replicate pending '\n']
  | c :: rest, cur, pending =>
    if c = '\n' then specSplitGo rest cur (pending + 1)
    else if 2 ≤ pending then cur :: specSplitGo rest [c] 0
    else specSplitGo rest (cur ++ List.replicate pending '\n' ++ [c]) 0

/-- Modelled from the spec: a splitter in which "any run of two or more
consecutive newline characters acts as a separator" (the whole run is
consumed, like a regex split on `\n{2,}`).  This is the spec's described
behaviour, written here only to be compared against the source's
`pySplit2NL`. -/
def specSplitRuns (content : List Char) : List (List Char) :=
  specSplitGo content [] 0

/-- Modelled from the spec: paragraphs under the spec's splitter, with
all-whitespace paragraphs discarded. -/
def specParagraphs (content : List Char) : List (List Char) :=
  (specSplitRuns content).filter (fun p => pyStrip p ≠ [])

/-! ## Concrete documents and runs used by witnesses and counterexamples -/

/-- An environment with all three connection variables absent. -/
def envAbsent : Env := ⟨none, none, none⟩

/-- Two 600-character paragraphs: chunked into two single-paragraph
chunks (the spec's own concrete scenario). -/
def docTwo : List Char :=
  List.replicate 600 'a' ++ nl2 ++ List.replicate 600 'b'

/-- Three 600-character paragraphs: three single-paragraph chunks. -/
def docThree : List Char :=
  List.replicate 600 'a' ++ nl2 ++ List.replicate 600 'b' ++ nl2 ++ List.replicate 600 'c'

/-- A document whose two chunks have byte-identical content. -/
def docDup : List Char :=
  List.replicate 600 'a' ++ nl2 ++ List.replicate 600 'a'

/-- The cache produced by diffing the three-chunk document against an
empty cache (used to instantiate `diffLoop`'s result concretely). -/
def cacheThree : JVal :=
  match diffLoop emptyCacheJ [] (parse_text_file docThree) with
  | .ok (_, c) => c
  | .error _ => emptyCacheJ

/-- The successful first-ever run on the two-character document, and the
cache it persists. -/
def runHi : RunOut := reingestRun envAbsent ['h', 'i'] .missing true (fun _ => true) 0 []

def cacheHi : JVal :=
  match runHi.persisted with
  | some c => c
  | none => emptyCacheJ

/-! ## Lemmas about the submission loop -/

/-- The successfully submitted prefix carries reference times
`now + 10 * (start index + position)`. -/
lemma submitLoop_get_fst (epOk : Nat → Bool) (now : Int) :
    ∀ (cs : List Chunk) (i j : Nat) (hj : j < (submitLoop epOk now cs i).1.length),
      ((submitLoop epOk now cs i).1.get ⟨j, hj⟩).1 = now + 10 * ((i : Int) + (j : Int))
  | [], i, j, hj => absurd hj (by simp [submitLoop])
  | c :: cs, i, j, hj => by
    by_cases h : epOk i = true
    · cases j with
      | zero => simp [submitLoop, h]
      | succ j =>
        have hj' : j < (submitLoop epOk now cs (i + 1)).1.length := by
          have := hj; simpa [submitLoop, h] using this
        have ih := submitLoop_get_fst epOk now cs (i + 1) j hj'
        have : ((submitLoop epOk now (c :: cs) i).1.get ⟨j + 1, hj⟩).1 =
            ((submitLoop epOk now cs (i + 1)).1.get ⟨j, hj'⟩).1 := by
          simp [submitLoop, h]
        rw [this, ih]
        push_cast
        ring
    · exact absurd hj (by simp [submitLoop, h])

/-- If every episode up to `j` succeeds and episode `j` fails, the loop
stops having submitted exactly the `j`-chunk prefix, and signals failure. -/
lemma submitLoop_first_failure (epOk : Nat → Bool) (now : Int) :
    ∀ (cs : List Chunk) (i j : Nat), j < cs.length →
      (∀ k, k < j → epOk (i + k) = true) → epOk (i + j) = false →
      (submitLoop epOk now cs i).1.length = j ∧ (submitLoop epOk now cs i).2 = false
  | [], i, j, hj, _, _ => by simp at hj
  | c :: cs, i, j, hj, hpre, hfail => by
    cases j with
    | zero =>
      have : epOk i = false := by simpa using hfail
      simp [submitLoop, this]
    | succ k =>
      have h0 : epOk i = true := by simpa using hpre 0 (Nat.succ_pos k)
      have ih := submitLoop_first_failure epOk now cs (i + 1) k
        (by simpa using Nat.lt_of_succ_lt_succ hj)
        (fun m hm => by
          have := hpre (m + 1) (Nat.succ_lt_succ hm)
          simpa [Nat.add_assoc, Nat.add_comm 1 m] using this)
        (by simpa [Nat.add_assoc, Nat.add_comm 1 k] using hfail)
      simp only [submitLoop, h0, if_pos]
      exact ⟨by simp [ih.1], ih.2⟩

/-- The submitted list of any `reingestRun` is the result of some
`submitLoop` started at index 0 (on the paths that never submit it is
empty, i.e. the loop on the empty list). -/
lemma reingestRun_submitted_eq (env : Env) (content : List Char)
    (file : CacheFile) (co : Bool) (eo : Nat → Bool) (now : Int) (ts : List Char) :
    ∃ news, (reingestRun env content file co eo now ts).submitted =
      (submitLoop eo now news 0).1 := by
  unfold reingestRun
  split
  · split
    · exact ⟨[], rfl⟩
    · split
      · exact ⟨[], rfl⟩
      · split
        · split
          · exact ⟨_, rfl⟩
          · exact ⟨_, rfl⟩
        · exact ⟨[], rfl⟩
  · exact ⟨[], rfl⟩

/-- Same for `ingestRun`. -/
lemma ingestRun_submitted_eq (env : Env) (content : List Char)
    (b : Bool) (co : Bool) (eo : Nat → Bool) (now : Int) :
    ∃ news, (ingestRun env content b co eo now).submitted =
      (submitLoop eo now news 0).1 := by
  unfold ingestRun
  split
  · split
    · split
      · exact ⟨_, rfl⟩
      · exact ⟨_, rfl⟩
    · exact ⟨[], rfl⟩
  · exact ⟨[], rfl⟩

/-! ## Lemmas about the cache-comparison loop -/

lemma jLookup_jSetAssoc (k : List Char) (v : JVal) :
    ∀ (m : List (List Char × JVal)) (k' : List Char),
      jLookup (jSetAssoc m k v) k' = if k' = k then some v else jLookup m k'
  | [], k' => by
    by_cases h : k' = k
    · subst h; simp [jSetAssoc, jLookup]
    · have h' : ¬ k = k' := fun hh => h hh.symm
      simp [jSetAssoc, jLookup, h, h']
  | (k₀, v₀) :: rest, k' => by
    have ih := jLookup_jSetAssoc k v rest k'
    by_cases h0 : k₀ = k
    · subst h0
      by_cases h1 : k₀ = k'
      · subst h1; simp [jSetAssoc, jLookup]
      · have h1' : ¬ k' = k₀ := fun hh => h1 hh.symm
        simp [jSetAssoc, jLookup, h1, h1']
    · by_cases h1 : k₀ = k'
      · subst h1
        have h0' : ¬ k₀ = k := h0
        have h0'' : ¬ k = k₀ := fun hh => h0' hh.symm
        simp [jSetAssoc, jLookup, h0', h0'']
      · simp [jSetAssoc, jLookup, h0, h1, ih]

/-- Inserting an absent key appends the pair at the end (CPython dict
insertion order). -/
lemma jSetAssoc_of_none (k : List Char) (v : JVal) :
    ∀ (m : List (List Char × JVal)), jLookup m k = none →
      jSetAssoc m k v = m ++ [(k, v)]
  | [], _ => rfl
  | (k₀, v₀) :: rest, h => by
    by_cases hk : k₀ = k
    · subst hk; simp [jLookup] at h
    · have hr : jLookup rest k = none := by simpa [jLookup, hk] using h
      simp [jSetAssoc, hk, jSetAssoc_of_none k v rest hr]

/-- Writing an updated `"chunks"` dict into a cache that had a readable
one makes it the new `"chunks"` value. -/
lemma jGetChunks_jSetChunks (cache : JVal) (m m' : List (List Char × JVal))
    (h : jGetChunks cache = .ok m) :
    jGetChunks (jSetChunks cache m') = .ok m' := by
  cases cache with
  | obj fields =>
    simp [jSetChunks, jGetChunks, jLookup_jSetAssoc]
  | str s => simp [jGetChunks] at h
  | num n => simp [jGetChunks] at h

/-- If the diff loop takes a step, the cache's `"chunks"` dict was
readable. -/
lemma diffLoop_ok_obj (cache : JVal) (ts : List Char) (c : Chunk) (cs : List Chunk)
    (x : List Chunk × JVal) (h : diffLoop cache ts (c :: cs) = .ok x) :
    ∃ m, jGetChunks cache = .ok m := by
  cases hm : jGetChunks cache with
  | ok m => exact ⟨m, rfl⟩
  | error e => rw [diffLoop, hm] at h; exact absurd h (by simp)

/-- A diff over chunks whose hashes are all present leaves the cache
untouched and reports nothing new. -/
lemma diffLoop_no_news (ts : List Char) :
    ∀ (cs : List Chunk) (cache : JVal) (m : List (List Char × JVal)),
      jGetChunks cache = .ok m →
      (∀ c ∈ cs, (jLookup m c.hash).isSome) →
      diffLoop cache ts cs = .ok ([], cache)
  | [], cache, m, hm, hall => rfl
  | c :: cs, cache, m, hm, hall => by
    have hc : (jLookup m c.hash).isSome := hall c (List.mem_cons_self c cs)
    have ih := diffLoop_no_news ts cs cache m hm
      (fun c' hc' => hall c' (List.mem_cons_of_mem c hc'))
    rw [diffLoop, hm]
    simp [hc, ih]

/-- The workhorse: a diff whose cache has a readable `"chunks"` dict `m`
succeeds, and the resulting new-chunk list and updated dict `m'` satisfy:
keys only grow; every diffed chunk ends up keyed; for each hash the
new-chunk list holds one occurrence if the hash was absent from `m` and
occurs among the chunks, none otherwise (later duplicates are skipped);
the occurrence it holds is the first one in chunk order; and `m'` has
exactly the keys of `m` plus one entry per new chunk. -/
lemma diffLoop_spec (ts : List Char) :
    ∀ (cs : List Chunk) (cache : JVal) (m : List (List Char × JVal)),
      jGetChunks cache = .ok m →
      ∃ news cache' m',
        diffLoop cache ts cs = .ok (news, cache') ∧
        jGetChunks cache' = .ok m' ∧
        (∀ h, (jLookup m h).isSome → (jLookup m' h).isSome) ∧
        (∀ c ∈ cs, (jLookup m' c.hash).isSome) ∧
        (∀ h, news.countP (fun c => decide (c.hash = h)) =
          if (jLookup m h).isSome then 0
          else if cs.any (fun c => decide (c.hash = h)) then 1 else 0) ∧
        (∀ h, news.find? (fun c => decide (c.hash = h)) =
          if (jLookup m h).isSome then none
          else cs.find? (fun c => decide (c.hash = h))) ∧
        (∀ h, m'.countP (fun kv => decide (kv.1 = h)) =
          m.countP (fun kv => decide (kv.1 = h)) +
            news.countP (fun c => decide (c.hash = h)))
  | [], cache, m, hm =>
    ⟨[], cache, m, rfl, hm, fun _ h => h, by simp, by simp, by simp, by simp⟩
  | c :: cs, cache, m, hm => by
    by_cases hc : (jLookup m c.hash).isSome
    · obtain ⟨news, cache', m', hd, hm', hmono, hmem, hcount, hfind, hkeys⟩ :=
        diffLoop_spec ts cs cache m hm
      refine ⟨news, cache', m', ?_, hm', hmono, ?_, ?_, ?_, hkeys⟩
      · rw [diffLoop, hm]; simp [hc, hd]
      · intro c' hc'
        rcases List.mem_cons.mp hc' with h | h
        · subst h; exact hmono _ hc
        · exact hmem c' h
      · intro h
        rw [hcount h]
        by_cases hh : (jLookup m h).isSome
        · simp [hh]
        · have hne : ¬ (c.hash = h) := by
            intro he; subst he; exact hh hc
          simp [hh, List.any_cons, hne]
      · intro h
        rw [hfind h]
        by_cases hh : (jLookup m h).isSome
        · simp [hh]
        · have hne : ¬ (c.hash = h) := by
            intro he; subst he; exact hh hc
          simp [hh, List.find?_cons, hne]
    · have hm2 : jGetChunks (jSetChunks cache (jSetAssoc m c.hash (entryFor c ts))) =
          .ok (jSetAssoc m c.hash (entryFor c ts)) :=
        jGetChunks_jSetChunks cache m _ hm
      obtain ⟨news, cache', m', hd, hm', hmono, hmem, hcount, hfind, hkeys⟩ :=
        diffLoop_spec ts cs (jSetChunks cache (jSetAssoc m c.hash (entryFor c ts)))
          (jSetAssoc m c.hash (entryFor c ts)) hm2
      have hsome : ∀ h, (jLookup m h).isSome →
          (jLookup (jSetAssoc m c.hash (entryFor c ts)) h).isSome := by
        intro h hh
        rw [jLookup_jSetAssoc]
        by_cases he : h = c.hash <;> simp [he, hh]
      refine ⟨c :: news, cache', m', ?_, hm', ?_, ?_, ?_, ?_, ?_⟩
      · rw [diffLoop, hm]; simp [hc, hd]
      · exact fun h hh => hmono h (hsome h hh)
      · intro c' hc'
        rcases List.mem_cons.mp hc' with h | h
        · subst h
          apply hmono
          rw [jLookup_jSetAssoc]
          simp
        · exact hmem c' h
      · intro h
        rw [List.countP_cons, hcount h, jLookup_jSetAssoc]
        by_cases he : c.hash = h
        · subst he
          simp [hc]
        · have he' : ¬ (h = c.hash) := fun hh => he hh.symm
          simp [he, he', List.any_cons]
      · intro h
        rw [List.find?_cons, hfind h, jLookup_jSetAssoc]
        by_cases he : c.hash = h
        · subst he
          simp [hc]
        · have he' : ¬ (h = c.hash) := fun hh => he hh.symm
          simp [he, he', List.find?_cons]
      · intro h
        rw [List.countP_cons, hkeys h,
          jSetAssoc_of_none c.hash (entryFor c ts) m (Option.not_isSome_iff_eq_none.mp hc),
          List.countP_append]
        by_cases he : c.hash = h
        · subst he; simp; omega
        · simp [he]

/-! ## C2: configuration handling -/

/-- C2, counterexample.  The claim says a run whose configuration lacks
the connection URI, username or password fails fast with a configuration
error.  In fact `os.environ.get` is called with a default for each of the
three variables, so with all three absent the run proceeds with the
defaults and (here, on an empty document) terminates successfully —
`err = none`, not a `ValueError` — even though connecting is impossible
(`connectOk = false` is never consulted). -/
theorem config_absent_defaults_cex :
    (reingestRun envAbsent [] .missing false (fun _ => false) 0 []).err = none ∧
    neo4jUri envAbsent = defaultUri ∧
    neo4jUser envAbsent = defaultUser ∧
    neo4jPassword envAbsent = defaultPassword ∧
    configOk envAbsent = true :=
  ⟨rfl, rfl, rfl, rfl, rfl⟩

/-- C2, amended.  Absent connection parameters fall back to built-in
defaults, so absence alone never raises; only a parameter explicitly set
to the empty string makes the run fail fast with a `ValueError`, raised
before any chunking or any connection attempt (the outcome is the same
for every document, cache state and connection behaviour, in both the
ingest and the reingest tool). -/
theorem config_empty_string_fails (env : Env)
    (h : neo4jUri env = "" ∨ neo4jUser env = "" ∨ neo4jPassword env = "") :
    ∀ (content : List Char) (file : CacheFile) (b co : Bool)
      (eo : Nat → Bool) (now : Int) (ts : List Char),
      reingestRun env content file co eo now ts = ⟨[], none, some .valueError⟩ ∧
      ingestRun env content b co eo now = ⟨[], none, some .valueError⟩ := by
  have hc : configOk env = false := by
    rcases h with h | h | h <;> simp [configOk, h]
  intro content file b co eo now ts
  exact ⟨by simp [reingestRun, hc], by simp [ingestRun, hc]⟩

/-- Witness for `config_empty_string_fails` at a concrete input. -/
theorem config_empty_string_fails_witness :
    neo4jUri ⟨some "", none, none⟩ = "" ∧
    reingestRun ⟨some "", none, none⟩ ['x'] .missing true (fun _ => true) 0 [] =
      ⟨[], none, some .valueError⟩ :=
  ⟨rfl, ((config_empty_string_fails ⟨some "", none, none⟩ (Or.inl rfl))
    ['x'] .missing true true (fun _ => true) 0 []).1⟩

/-! ## C4: reference-time assignment -/

/-- C4.  In both tools, the `i`-th chunk actually submitted in a run
(counting from 0 in submission order, regardless of the chunk's original
`chunk_number`) is assigned `reference_time = now + i * 10` seconds, and
hence the assigned reference times are strictly increasing in submission
order. -/
theorem reference_time_assignment (env : Env) (content : List Char)
    (file : CacheFile) (b co : Bool) (eo : Nat → Bool) (now : Int) (ts : List Char) :
    (∀ j (hj : j < (reingestRun env content file co eo now ts).submitted.length),
      ((reingestRun env content file co eo now ts).submitted.get ⟨j, hj⟩).1 =
        now + 10 * (j : Int)) ∧
    (∀ j k (hj : j < (reingestRun env content file co eo now ts).submitted.length)
      (hk : k < (reingestRun env content file co eo now ts).submitted.length),
      j < k →
      ((reingestRun env content file co eo now ts).submitted.get ⟨j, hj⟩).1 <
        ((reingestRun env content file co eo now ts).submitted.get ⟨k, hk⟩).1) ∧
    (∀ j (hj : j < (ingestRun env content b co eo now).submitted.length),
      ((ingestRun env content b co eo now).submitted.get ⟨j, hj⟩).1 =
        now + 10 * (j : Int)) ∧
    (∀ j k (hj : j < (ingestRun env content b co eo now).submitted.length)
      (hk : k < (ingestRun env content b co eo now).submitted.length),
      j < k →
      ((ingestRun env content b co eo now).submitted.get ⟨j, hj⟩).1 <
        ((ingestRun env content b co eo now).submitted.get ⟨k, hk⟩).1) := by
  obtain ⟨news₁, h₁⟩ := reingestRun_submitted_eq env content file co eo now ts
  obtain ⟨news₂, h₂⟩ := ingestRun_submitted_eq env content b co eo now
  have key₁ : ∀ j (hj : j < (reingestRun env content file co eo now ts).submitted.length),
      ((reingestRun env content file co eo now ts).submitted.get ⟨j, hj⟩).1 =
        now + 10 * (j : Int) := by
    intro j hj
    have hj' : j < (submitLoop eo now news₁ 0).1.length := by rw [← h₁]; exact hj
    have := submitLoop_get_fst eo now news₁ 0 j hj'
    simp only [Nat.cast_zero, zero_add] at this
    calc ((reingestRun env content file co eo now ts).submitted.get ⟨j, hj⟩).1
        = ((submitLoop eo now news₁ 0).1.get ⟨j, hj'⟩).1 := by
          congr 1; simp [h₁]
      _ = now + 10 * (j : Int) := this
  have key₂ : ∀ j (hj : j < (ingestRun env content b co eo now).submitted.length),
      ((ingestRun env content b co eo now).submitted.get ⟨j, hj⟩).1 =
        now + 10 * (j : Int) := by
    intro j hj
    have hj' : j < (submitLoop eo now news₂ 0).1.length := by rw [← h₂]; exact hj
    have := submitLoop_get_fst eo now news₂ 0 j hj'
    simp only [Nat.cast_zero, zero_add] at this
    calc ((ingestRun env content b co eo now).submitted.get ⟨j, hj⟩).1
        = ((submitLoop eo now news₂ 0).1.get ⟨j, hj'⟩).1 := by
          congr 1; simp [h₂]
      _ = now + 10 * (j : Int) := this
  refine ⟨key₁, ?_, key₂, ?_⟩
  · intro j k hj hk hjk
    rw [key₁ j hj, key₁ k hk]
    have : (j : Int) < (k : Int) := by exact_mod_cast hjk
    linarith
  · intro j k hj hk hjk
    rw [key₂ j hj, key₂ k hk]
    have : (j : Int) < (k : Int) := by exact_mod_cast hjk
    linarith

/-- Witness for `reference_time_assignment`: a first-ever reingest run on
the two-paragraph document submits two chunks, with reference times
`now + 0` and `now + 10`, in increasing order. -/
theorem reference_time_assignment_witness :
    1 < (reingestRun envAbsent docTwo .missing true (fun _ => true) 0 []).submitted.length ∧
    (((reingestRun envAbsent docTwo .missing true (fun _ => true) 0 []).submitted.getD
        0 (0, ⟨0, []⟩)).1 = 0 + 10 * ((0 : Nat) : Int)) ∧
    (((reingestRun envAbsent docTwo .missing true (fun _ => true) 0 []).submitted.getD
        1 (0, ⟨0, []⟩)).1 = 0 + 10 * ((1 : Nat) : Int)) ∧
    (((reingestRun envAbsent docTwo .missing true (fun _ => true) 0 []).submitted.getD
        0 (0, ⟨0, []⟩)).1 <
      ((reingestRun envAbsent docTwo .missing true (fun _ => true) 0 []).submitted.getD
        1 (0, ⟨0, []⟩)).1) := by
  have h := reference_time_assignment envAbsent docTwo .missing true true
    (fun _ => true) 0 []
  have hlen : 1 < (reingestRun envAbsent docTwo .missing true (fun _ => true) 0
      []).submitted.length := by decide
  have h0 : (0 : Nat) < (reingestRun envAbsent docTwo .missing true (fun _ => true) 0
      []).submitted.length := Nat.lt_of_le_of_lt (Nat.zero_le 1) hlen
  refine ⟨hlen, ?_, ?_, ?_⟩
  · rw [List.getD_eq_getElem _ _ h0]
    exact h.1 0 h0
  · rw [List.getD_eq_getElem _ _ hlen]
    exact h.1 1 hlen
  · rw [List.getD_eq_getElem _ _ h0, List.getD_eq_getElem _ _ hlen]
    exact h.2.1 0 1 h0 hlen Nat.zero_lt_one

/-! ## C1: behaviour on a per-chunk submission failure -/

/-- C1, counterexample.  The claim says that when one chunk's submission
fails the orchestrator continues with the remaining chunks and commits
the successfully submitted chunks' hashes.  In fact the `add_episode`
loop has no per-chunk exception handling: on the three-chunk document,
with episode 1 failing (episodes 0 and 2 would succeed), the run stops
after submitting only chunk 1 — chunk 3 is never attempted — and
`save_cache` is never reached, so nothing at all is persisted, not even
the successfully submitted first chunk's hash. -/
theorem per_chunk_failure_cex :
    (parse_text_file docThree).length = 3 ∧
    (fun i => decide (i ≠ 1)) 0 = true ∧
    (fun i => decide (i ≠ 1)) 2 = true ∧
    reingestRun envAbsent docThree .missing true (fun i => decide (i ≠ 1)) 0 [] =
      ⟨[(0, ⟨1, List.replicate 600 'a'⟩)], none, some .submissionError⟩ :=
  ⟨by decide, rfl, rfl, rfl⟩

/-- C1, amended.  If the `j`-th episode submission of a run fails (all
earlier ones succeeding), the run aborts at that point: exactly the
first `j` chunks were submitted, the remaining chunks are not attempted,
no cache update is persisted at all — neither the failed nor the already
submitted chunks' hashes — and the run raises the submission error; so
every chunk of the run (submitted or not) is retried on a subsequent
run. -/
theorem submission_failure_aborts (env : Env) (content ts : List Char)
    (file : CacheFile) (eo : Nat → Bool) (now : Int) (news : List Chunk)
    (cache' : JVal) (j : Nat)
    (hco : configOk env = true)
    (hdiff : diffLoop (load_cache file) ts (parse_text_file content) =
      .ok (news, cache'))
    (hj : j < news.length)
    (hfail : eo j = false)
    (hpre : ∀ k, k < j → eo k = true) :
    (reingestRun env content file true eo now ts).submitted.length = j ∧
    (reingestRun env content file true eo now ts).persisted = none ∧
    (reingestRun env content file true eo now ts).err = some .submissionError := by
  have hne : news ≠ [] := by
    intro h; rw [h] at hj; simp at hj
  have hsl := submitLoop_first_failure eo now news 0 j hj
    (fun k hk => by simpa using hpre k hk) (by simpa using hfail)
  simp only [reingestRun, hco, if_true, hdiff]
  simp [hne, hsl.2, hsl.1]

/-- Witness for `submission_failure_aborts` at a concrete input. -/
theorem submission_failure_aborts_witness :
    configOk envAbsent = true ∧
    1 < (parse_text_file docThree).length ∧
    (fun i => decide (i ≠ 1)) 1 = false ∧
    ((reingestRun envAbsent docThree .missing true (fun i => decide (i ≠ 1)) 0
        []).submitted.length = 1 ∧
      (reingestRun envAbsent docThree .missing true (fun i => decide (i ≠ 1)) 0
        []).persisted = none ∧
      (reingestRun envAbsent docThree .missing true (fun i => decide (i ≠ 1)) 0
        []).err = some .submissionError) :=
  ⟨by decide, by decide, rfl,
    submission_failure_aborts envAbsent docThree [] .missing
      (fun i => decide (i ≠ 1)) 0 (parse_text_file docThree) cacheThree 1
      (by decide) rfl (by decide) rfl
      (fun k hk => by
        have hk0 : k = 0 := by omega
        subst hk0; rfl)⟩

/-! ## C6: cache idempotence -/

/-- C6.  If a reingest run completes successfully and saves its cache
`c'`, then an immediately following incremental run on the byte-identical
document, loading that cache, submits zero chunks and succeeds — and it
does so for every connection behaviour, episode behaviour, clock and
timestamp, because it returns before the graph engine is ever
contacted. -/
theorem cache_idempotence (env : Env) (content : List Char) (file : CacheFile)
    (co : Bool) (eo : Nat → Bool) (now : Int) (ts : List Char) (c' : JVal)
    (h1 : (reingestRun env content file co eo now ts).err = none)
    (h2 : (reingestRun env content file co eo now ts).persisted = some c') :
    ∀ (co₂ : Bool) (eo₂ : Nat → Bool) (now₂ : Int) (ts₂ : List Char),
      (reingestRun env content (.present (some c')) co₂ eo₂ now₂ ts₂).submitted = [] ∧
      (reingestRun env content (.present (some c')) co₂ eo₂ now₂ ts₂).err = none := by
  intro co₂ eo₂ now₂ ts₂
  by_cases hco : configOk env = true
  · cases hdiff : diffLoop (load_cache file) ts (parse_text_file content) with
    | error e =>
      exfalso
      simp [reingestRun, hco, hdiff] at h2
    | ok p =>
      obtain ⟨news, cacheA⟩ := p
      have hne : news ≠ [] := by
        intro h
        simp [reingestRun, hco, hdiff, h] at h2
      have hcA : cacheA = c' := by
        by_cases hconn : co = true
        · by_cases hsub : (submitLoop eo now news 0).2 = true
          · have := h2
            simp [reingestRun, hco, hdiff, hne, hconn, hsub] at this
            exact this
          · exfalso
            simp [reingestRun, hco, hdiff, hne, hconn, hsub] at h2
        · exfalso
          simp [reingestRun, hco, hdiff, hne, hconn] at h2
      subst hcA
      cases hchunks : parse_text_file content with
      | nil =>
        exfalso
        rw [hchunks] at hdiff
        simp [diffLoop] at hdiff
        exact hne hdiff.1
      | cons c0 cs0 =>
        rw [hchunks] at hdiff
        obtain ⟨m, hm⟩ := diffLoop_ok_obj _ ts c0 cs0 _ hdiff
        obtain ⟨news₀, cache'₀, m', hd₀, hm', hmono, hmem, _, _, _⟩ :=
          diffLoop_spec ts (c0 :: cs0) (load_cache file) m hm
        have heq := hdiff.symm.trans hd₀
        injection heq with heq
        injection heq with hn hcA2
        subst hn
        subst hcA2
        have hnn : diffLoop cacheA ts₂ (c0 :: cs0) = .ok ([], cacheA) :=
          diffLoop_no_news ts₂ (c0 :: cs0) cacheA m' hm' hmem
        constructor <;>
          simp [reingestRun, hco, load_cache, hchunks, hnn]
  · exfalso
    simp [reingestRun, hco] at h2

/-- Witness for `cache_idempotence` at a concrete input: the second run
is given a dead connection and failing episodes, and still succeeds with
zero submissions. -/
theorem cache_idempotence_witness :
    runHi.err = none ∧ runHi.persisted = some cacheHi ∧
    (reingestRun envAbsent ['h', 'i'] (.present (some cacheHi)) false
      (fun _ => false) 7 ['z']).submitted = [] ∧
    (reingestRun envAbsent ['h', 'i'] (.present (some cacheHi)) false
      (fun _ => false) 7 ['z']).err = none := by
  have h := cache_idempotence envAbsent ['h', 'i'] .missing true (fun _ => true)
    0 [] cacheHi rfl rfl false (fun _ => false) 7 ['z']
  exact ⟨rfl, rfl, h.1, h.2⟩

/-! ## C8: duplicate-content chunks collapse -/

/-- C8.  If a hash `H` occurs at least twice among a document's chunks
(two chunks with byte-identical trimmed content), then diffing against
the empty cache of a first-ever run puts exactly one chunk with hash `H`
into the list submitted to the graph engine, records exactly one cache
entry under `H`, and the one submitted occurrence is the first occurrence
in document order. -/
theorem duplicate_content_submitted_once (content ts H : List Char)
    (hdup : 2 ≤ (parse_text_file content).countP (fun c => decide (c.hash = H))) :
    ∃ news cache' m',
      diffLoop emptyCacheJ ts (parse_text_file content) = .ok (news, cache') ∧
      jGetChunks cache' = .ok m' ∧
      news.countP (fun c => decide (c.hash = H)) = 1 ∧
      m'.countP (fun kv => decide (kv.1 = H)) = 1 ∧
      news.find? (fun c => decide (c.hash = H)) =
        (parse_text_file content).find? (fun c => decide (c.hash = H)) := by
  have hm : jGetChunks emptyCacheJ = .ok [] := rfl
  obtain ⟨news, cache', m', hd, hm', hmono, hmem, hcount, hfind, hkeys⟩ :=
    diffLoop_spec ts (parse_text_file content) emptyCacheJ [] hm
  have hany : (parse_text_file content).any (fun c => decide (c.hash = H)) = true := by
    have hpos : 0 < (parse_text_file content).countP (fun c => decide (c.hash = H)) := by
      omega
    obtain ⟨a, ha, hpa⟩ := List.countP_pos_iff.mp hpos
    exact List.any_eq_true.mpr ⟨a, ha, hpa⟩
  have h1 : news.countP (fun c => decide (c.hash = H)) = 1 := by
    rw [hcount H]
    simp [jLookup, hany]
  refine ⟨news, cache', m', hd, hm', h1, ?_, ?_⟩
  · rw [hkeys H, h1]
    simp
  · rw [hfind H]
    simp [jLookup]

/-- Witness for `duplicate_content_submitted_once` at a concrete input. -/
theorem duplicate_content_submitted_once_witness :
    2 ≤ (parse_text_file docDup).countP
      (fun c => decide (c.hash = List.replicate 600 'a')) ∧
    (∃ news cache' m',
      diffLoop emptyCacheJ [] (parse_text_file docDup) = .ok (news, cache') ∧
      jGetChunks cache' = .ok m' ∧
      news.countP (fun c => decide (c.hash = List.replicate 600 'a')) = 1 ∧
      m'.countP (fun kv => decide (kv.1 = List.replicate 600 'a')) = 1 ∧
      news.find? (fun c => decide (c.hash = List.replicate 600 'a')) =
        (parse_text_file docDup).find?
          (fun c => decide (c.hash = List.replicate 600 'a'))) :=
  ⟨by decide,
    duplicate_content_submitted_once docDup [] (List.replicate 600 'a') (by decide)⟩

/-! ## C7: graceful cache-load degradation -/

/-- C7.  `load_cache` on a missing cache file, or on a file whose
contents fail to parse as JSON, returns the empty cache
`{"chunks": {}}`, and consequently a reingest run over a corrupt cache
file is observationally identical to a first-ever run (missing file) in
every respect: same submissions, same persisted cache, same outcome. -/
theorem graceful_cache_degradation :
    load_cache .missing = emptyCacheJ ∧
    load_cache (.present none) = emptyCacheJ ∧
    ∀ (env : Env) (content : List Char) (co : Bool) (eo : Nat → Bool)
      (now : Int) (ts : List Char),
      reingestRun env content (.present none) co eo now ts =
        reingestRun env content .missing co eo now ts :=
  ⟨rfl, rfl, fun _ _ _ _ _ _ => rfl⟩

/-! ## C10: no shape validation of a parsed cache file -/

/-- C10.  `load_cache` returns whatever valid JSON the cache file parses
to, without normalizing its shape: for the JSON text `{}` the returned
object is `{}` itself (not `{"chunks": {}}`), and a run over a document
with at least one chunk then fails with a `KeyError` at the first
`cache["chunks"]` lookup instead of degrading to an empty cache. -/
theorem cache_shape_unvalidated :
    load_cache (.present (some (.obj []))) = .obj [] ∧
    JVal.obj [] ≠ emptyCacheJ ∧
    ∀ (env : Env) (content : List Char) (co : Bool) (eo : Nat → Bool)
      (now : Int) (ts : List Char),
      configOk env = true → parse_text_file content ≠ [] →
      reingestRun env content (.present (some (.obj []))) co eo now ts =
        ⟨[], none, some .keyError⟩ := by
  refine ⟨rfl, by simp [emptyCacheJ], ?_⟩
  intro env content co eo now ts hco hne
  cases hc : parse_text_file content with
  | nil => exact absurd hc hne
  | cons c cs =>
    have hdiff : diffLoop (load_cache (.present (some (.obj [])))) ts
        (parse_text_file content) = .error .keyError := by
      rw [hc]; rfl
    simp [reingestRun, hco, hdiff]

/-- Witness for `cache_shape_unvalidated` at a concrete input. -/
theorem cache_shape_unvalidated_witness :
    configOk envAbsent = true ∧ parse_text_file ['h', 'i'] ≠ [] ∧
    reingestRun envAbsent ['h', 'i'] (.present (some (.obj []))) true
      (fun _ => true) 0 [] = ⟨[], none, some .keyError⟩ :=
  ⟨by decide, by decide,
    cache_shape_unvalidated.2.2 envAbsent ['h', 'i'] true (fun _ => true) 0 []
      (by decide) (by decide)⟩

/-! ## The chunker: joining, size bounds, reconstruction -/

lemma pyStrip_length_le (s : List Char) : (pyStrip s).length ≤ s.length := by
  unfold pyStrip
  have h1 := (List.dropWhile_sublist (l := s) pyWS).length_le
  have h2 := (List.dropWhile_sublist (l := (s.dropWhile pyWS).reverse) pyWS).length_le
  simp only [List.length_reverse] at h1 h2 ⊢
  omega

lemma pySplit2NL_ne_nil : ∀ s, pySplit2NL s ≠ []
  | [] => by simp [pySplit2NL]
  | [c] => by simp [pySplit2NL]
  | c :: d :: rest => by
    rw [pySplit2NL]
    split
    · simp
    · cases h : pySplit2NL (d :: rest) <;> simp

/-- The first part returned by the splitter on `x :: xs` is either empty
(a separator at the very front) or starts with `x`. -/
lemma pySplit2NL_head (x : Char) (xs : List Char) :
    (∃ ps, pySplit2NL (x :: xs) = [] :: ps) ∨
    (∃ t ps, pySplit2NL (x :: xs) = (x :: t) :: ps) := by
  cases xs with
  | nil => exact Or.inr ⟨[], [], rfl⟩
  | cons y rest =>
    rw [pySplit2NL]
    split
    · exact Or.inl ⟨_, rfl⟩
    · cases h : pySplit2NL (y :: rest) with
      | nil => exact absurd h (pySplit2NL_ne_nil _)
      | cons p₀ ps => exact Or.inr ⟨p₀, ps, rfl⟩

/-- Rejoining the split parts with the two-newline separator restores the
original text (`'\n\n'.join(s.split('\n\n')) == s`). -/
lemma joinSep_pySplit2NL : ∀ s, joinSep nl2 (pySplit2NL s) = s
  | [] => rfl
  | [c] => rfl
  | c :: d :: rest => by
    rw [pySplit2NL]
    split
    · rename_i hcd
      obtain ⟨hc, hd⟩ := hcd
      subst hc; subst hd
      obtain ⟨p₀, ps, hp⟩ := List.exists_cons_of_ne_nil (pySplit2NL_ne_nil rest)
      have ih := joinSep_pySplit2NL rest
      rw [hp] at ih ⊢
      show ([] : List Char) ++ nl2 ++ joinSep nl2 (p₀ :: ps) = _
      rw [ih]
      rfl
    · cases hq : pySplit2NL (d :: rest) with
      | nil => exact absurd hq (pySplit2NL_ne_nil _)
      | cons p₀ ps =>
        have ih := joinSep_pySplit2NL (d :: rest)
        rw [hq] at ih
        cases ps with
        | nil =>
          show (c :: p₀ : List Char) = c :: d :: rest
          have : p₀ = d :: rest := ih
          rw [this]
        | cons q ps' =>
          show (c :: p₀) ++ nl2 ++ joinSep nl2 (q :: ps') = c :: d :: rest
          have : p₀ ++ nl2 ++ joinSep nl2 (q :: ps') = d :: rest := ih
          rw [← this]
          simp

/-- No part returned by the splitter contains the separator. -/
lemma pySplit2NL_no_sep : ∀ (s : List Char), ∀ p ∈ pySplit2NL s,
    ¬ ∃ a b, p = a ++ nl2 ++ b
  | [] => by
    intro p hp ⟨a, b, he⟩
    simp [pySplit2NL] at hp
    subst hp
    simp [nl2] at he
  | [c] => by
    intro p hp ⟨a, b, he⟩
    simp [pySplit2NL] at hp
    subst hp
    have := congrArg List.length he
    simp [nl2] at this
    omega
  | c :: d :: rest => by
    intro p hp hex
    rw [pySplit2NL] at hp
    split at hp
    · rcases List.mem_cons.mp hp with h | h
      · subst h
        obtain ⟨a, b, he⟩ := hex
        have := congrArg List.length he
        simp [nl2] at this
        omega
      · exact pySplit2NL_no_sep rest p h hex
    · rename_i hcd
      cases hq : pySplit2NL (d :: rest) with
      | nil => exact absurd hq (pySplit2NL_ne_nil _)
      | cons p₀ ps =>
        rw [hq] at hp
        rcases List.mem_cons.mp hp with h | h
        · subst h
          obtain ⟨a, b, he⟩ := hex
          cases a with
          | nil =>
            simp [nl2] at he
            obtain ⟨hc, hp₀⟩ := he
            rcases pySplit2NL_head d rest with ⟨ps', hps'⟩ | ⟨t, ps', hps'⟩
            · rw [hps'] at hq
              injection hq with h1 h2
              subst h1
              simp at hp₀
            · rw [hps'] at hq
              injection hq with h1 h2
              rw [← h1] at hp₀
              have hd : d = '\n' := by
                have := congrArg (fun l => l.head?) hp₀
                simpa using this
              exact hcd ⟨hc, hd⟩
          | cons x a' =>
            simp at he
            obtain ⟨hcx, hp₀⟩ := he
            exact pySplit2NL_no_sep (d :: rest) p₀
              (by rw [hq]; exact List.mem_cons_self _ _)
              ⟨a', b, by simpa [List.append_assoc] using hp₀⟩
        · exact pySplit2NL_no_sep (d :: rest) p (by rw [hq]; exact List.mem_cons_of_mem _ h) hex

/-! ## C5: what the paragraph splitter actually splits on -/

/-- C5, counterexample.  The claim says any run of two or more
consecutive newlines acts as a separator.  Python's
`content.split('\n\n')` consumes exactly two newlines per separator:
on `"a\n\n\nb"` (a run of three newlines) the code yields the paragraphs
`["a", "\nb"]` — the third newline stays attached to the second
paragraph — while a splitter that treats the whole run as a separator
(per the spec's words, `specParagraphs`) yields `["a", "b"]`. -/
theorem split_runs_cex :
    paragraphs ['a', '\n', '\n', '\n', 'b'] = [['a'], ['\n', 'b']] ∧
    specParagraphs ['a', '\n', '\n', '\n', 'b'] = [['a'], ['b']] ∧
    paragraphs ['a', '\n', '\n', '\n', 'b'] ≠
      specParagraphs ['a', '\n', '\n', '\n', 'b'] :=
  ⟨by decide, by decide, by decide⟩

/-- C5, amended.  The chunker splits the document on consecutive
non-overlapping occurrences of the exact two-character sequence
`"\n\n"`, scanned left to right (so a run of `2k+1` newlines leaves one
newline attached to the following paragraph), and keeps exactly the
parts whose `strip()` is non-empty: rejoining the parts with `"\n\n"`
restores the document, no part contains `"\n\n"`, and a part is a kept
paragraph exactly when it is not all-whitespace. -/
theorem split_exact_double_newline (s : List Char) :
    joinSep nl2 (pySplit2NL s) = s ∧
    (∀ p ∈ pySplit2NL s, ¬ ∃ a b, p = a ++ nl2 ++ b) ∧
    (∀ p, p ∈ paragraphs s ↔ p ∈ pySplit2NL s ∧ pyStrip p ≠ []) := by
  refine ⟨joinSep_pySplit2NL s, pySplit2NL_no_sep s, ?_⟩
  intro p
  simp [paragraphs, List.mem_filter]

/-- Witness for `split_exact_double_newline` at a concrete input. -/
theorem split_exact_double_newline_witness :
    joinSep nl2 (pySplit2NL ['a', '\n', '\n', '\n', 'b']) =
      ['a', '\n', '\n', '\n', 'b'] ∧
    (['\n', 'b'] ∈ pySplit2NL ['a', '\n', '\n', '\n', 'b']) ∧
    (¬ ∃ a b, (['\n', 'b'] : List Char) = a ++ nl2 ++ b) ∧
    (['\n', 'b'] ∈ paragraphs ['a', '\n', '\n', '\n', 'b'] ↔
      ['\n', 'b'] ∈ pySplit2NL ['a', '\n', '\n', '\n', 'b'] ∧
        pyStrip ['\n', 'b'] ≠ []) :=
  ⟨(split_exact_double_newline ['a', '\n', '\n', '\n', 'b']).1,
    by decide,
    (split_exact_double_newline ['a', '\n', '\n', '\n', 'b']).2.1
      ['\n', 'b'] (by decide),
    (split_exact_double_newline ['a', '\n', '\n', '\n', 'b']).2.2 ['\n', 'b']⟩

/-! ## Whitespace-clean texts and joining (towards reconstruction) -/

/-- If stripping changes nothing, the head is not whitespace. -/
lemma clean_head (c : Char) (t : List Char) (h : pyStrip (c :: t) = c :: t) :
    pyWS c = false := by
  by_contra hws
  have hws' : pyWS c = true := by
    cases hw : pyWS c
    · exact absurd hw hws
    · rfl
  have h1 : List.dropWhile pyWS (c :: t) = List.dropWhile pyWS t := by
    simp [List.dropWhile_cons, hws']
  have h2 : (List.dropWhile pyWS t).length ≤ t.length :=
    (List.dropWhile_sublist (l := t) pyWS).length_le
  have h3 : (pyStrip (c :: t)).length ≤ (List.dropWhile pyWS (c :: t)).length := by
    unfold pyStrip
    have := (List.dropWhile_sublist
      (l := (List.dropWhile pyWS (c :: t)).reverse) pyWS).length_le
    simpa using this
  rw [h, h1] at h3
  simp at h3
  omega

/-- If stripping changes nothing, the whole left `dropWhile` changes
nothing. -/
lemma clean_dropWhile (s : List Char) (h : pyStrip s = s) :
    List.dropWhile pyWS s = s := by
  apply (List.dropWhile_sublist (l := s) pyWS).eq_of_length
  have h1 : (List.dropWhile pyWS s).length ≤ s.length :=
    (List.dropWhile_sublist (l := s) pyWS).length_le
  have h2 : (pyStrip s).length ≤ (List.dropWhile pyWS s).length := by
    unfold pyStrip
    have := (List.dropWhile_sublist
      (l := (List.dropWhile pyWS s).reverse) pyWS).length_le
    simpa using this
  rw [h] at h2
  omega

/-- If stripping changes nothing, the last character is not whitespace. -/
lemma clean_last (c : Char) (t : List Char) (h : pyStrip (t ++ [c]) = t ++ [c]) :
    pyWS c = false := by
  have hd : List.dropWhile pyWS (t ++ [c]) = t ++ [c] := clean_dropWhile _ h
  have hrev : List.dropWhile pyWS ((t ++ [c]).reverse) = (t ++ [c]).reverse := by
    have : pyStrip (t ++ [c]) =
        (List.dropWhile pyWS ((t ++ [c]).reverse)).reverse := by
      unfold pyStrip
      rw [hd]
    rw [h] at this
    have := congrArg List.reverse this
    simpa using this.symm
  rw [List.reverse_append] at hrev
  simp only [List.reverse_cons, List.reverse_nil, List.nil_append,
    List.singleton_append] at hrev
  by_contra hws
  have hws' : pyWS c = true := by
    cases hw : pyWS c
    · exact absurd hw hws
    · rfl
  rw [List.dropWhile_cons, hws'] at hrev
  have := congrArg List.length hrev
  have hle : (List.dropWhile pyWS t.reverse).length ≤ t.reverse.length :=
    (List.dropWhile_sublist (l := t.reverse) pyWS).length_le
  simp at this hle
  omega

/-- A text with non-whitespace first and last characters strips to
itself. -/
lemma strip_of_ends (a b : Char) (mid : List Char)
    (ha : pyWS a = false) (hb : pyWS b = false) :
    pyStrip (a :: mid ++ [b]) = a :: mid ++ [b] := by
  unfold pyStrip
  have h1 : List.dropWhile pyWS (a :: (mid ++ [b])) = a :: (mid ++ [b]) := by
    simp [List.dropWhile_cons, ha]
  rw [show (a :: mid ++ [b] : List Char) = a :: (mid ++ [b]) by simp, h1]
  have h2 : (a :: (mid ++ [b])).reverse = b :: (mid.reverse ++ [a]) := by
    simp
  rw [h2]
  have h3 : List.dropWhile pyWS (b :: (mid.reverse ++ [a])) =
      b :: (mid.reverse ++ [a]) := by
    simp [List.dropWhile_cons, hb]
  rw [h3]
  simp

/-- Gluing two non-empty clean texts around anything is clean. -/
lemma clean_append (x a b : List Char) (hane : a ≠ []) (hbne : b ≠ [])
    (hca : pyStrip a = a) (hcb : pyStrip b = b) :
    pyStrip (a ++ x ++ b) = a ++ x ++ b := by
  obtain ⟨ha0, ta, rfl⟩ := List.exists_cons_of_ne_nil hane
  rcases List.eq_nil_or_concat b with hb0 | ⟨tb, lb, hb⟩
  · exact absurd hb0 hbne
  subst hb
  rw [List.concat_eq_append] at hcb ⊢
  have hha : pyWS ha0 = false := clean_head _ _ hca
  have hhb : pyWS lb = false := clean_last _ _ hcb
  have : (ha0 :: ta) ++ x ++ (tb ++ [lb]) =
      ha0 :: (ta ++ x ++ tb) ++ [lb] := by simp
  rw [this]
  exact strip_of_ends ha0 lb (ta ++ x ++ tb) hha hhb

lemma joinSep_append (sep : List Char) :
    ∀ (l₁ l₂ : List (List Char)), l₁ ≠ [] → l₂ ≠ [] →
      joinSep sep (l₁ ++ l₂) = joinSep sep l₁ ++ sep ++ joinSep sep l₂
  | [], _, h, _ => absurd rfl h
  | [p], l₂, _, h₂ => by
    cases l₂ with
    | nil => exact absurd rfl h₂
    | cons q ps => rfl
  | p :: q :: ps, l₂, _, h₂ => by
    have ih := joinSep_append sep (q :: ps) l₂ (by simp) h₂
    show p ++ sep ++ joinSep sep (q :: ps ++ l₂) =
      (p ++ sep ++ joinSep sep (q :: ps)) ++ sep ++ joinSep sep l₂
    rw [show (q :: ps ++ l₂ : List (List Char)) = (q :: ps) ++ l₂ from rfl, ih]
    simp [List.append_assoc]

/-- A non-empty blank-line join of non-empty clean paragraphs is
non-empty and clean. -/
lemma clean_joinSep : ∀ (cs : List (List Char)), cs ≠ [] →
    (∀ p ∈ cs, p ≠ [] ∧ pyStrip p = p) →
    joinSep nl2 cs ≠ [] ∧ pyStrip (joinSep nl2 cs) = joinSep nl2 cs
  | [], h, _ => absurd rfl h
  | [p], _, hp => by
    have := hp p (List.mem_singleton_self p)
    exact ⟨this.1, this.2⟩
  | p :: q :: ps, _, hp => by
    have hph := hp p (List.mem_cons_self _ _)
    have ih := clean_joinSep (q :: ps) (by simp)
      (fun r hr => hp r (List.mem_cons_of_mem _ hr))
    constructor
    · show p ++ nl2 ++ joinSep nl2 (q :: ps) ≠ []
      simp [hph.1]
    · show pyStrip (p ++ nl2 ++ joinSep nl2 (q :: ps)) =
        p ++ nl2 ++ joinSep nl2 (q :: ps)
      have := clean_append nl2 p (joinSep nl2 (q :: ps)) hph.1 ih.1 hph.2 ih.2
      simpa [List.append_assoc] using this

/-- A chunk loop started on a non-empty buffer emits at least one
chunk. -/
lemma chunkLoop_ne_nil : ∀ (ps : List (List Char)) (cur : List Char) (n : Nat),
    cur ≠ [] → (∀ p ∈ ps, p ≠ []) → chunkLoop ps cur n ≠ []
  | [], cur, n, hc, _ => by simp [chunkLoop, hc]
  | p :: ps, cur, n, hc, hps => by
    rw [chunkLoop]
    split
    · simp
    · exact chunkLoop_ne_nil ps _ n (by simp [nl2])
        (fun q hq => hps q (List.mem_cons_of_mem _ hq))

/-- The reconstruction invariant of the accumulation loop: if the buffer
is the blank-line join of already-consumed clean paragraphs `cs` and the
remaining paragraphs `ps` are clean, then the blank-line join of the
emitted chunk contents equals the blank-line join of `cs ++ ps`. -/
lemma chunkLoop_join : ∀ (ps cs : List (List Char)) (n : Nat),
    (∀ p ∈ ps, p ≠ [] ∧ pyStrip p = p) →
    (∀ p ∈ cs, p ≠ [] ∧ pyStrip p = p) →
    joinSep nl2 ((chunkLoop ps (joinSep nl2 cs) n).map Chunk.content) =
      joinSep nl2 (cs ++ ps)
  | [], cs, n, _, hcs => by
    rcases eq_or_ne cs [] with h | h
    · subst h
      simp [chunkLoop, joinSep]
    · obtain ⟨hne, hclean⟩ := clean_joinSep cs h hcs
      simp [chunkLoop, hne, hclean, joinSep]
  | p :: ps, cs, n, hps, hcs => by
    have hp := hps p (List.mem_cons_self _ _)
    have hps' : ∀ q ∈ ps, q ≠ [] ∧ pyStrip q = q :=
      fun q hq => hps q (List.mem_cons_of_mem _ hq)
    have hsing : ∀ q ∈ ([p] : List (List Char)), q ≠ [] ∧ pyStrip q = q := by
      intro q hq
      rw [List.mem_singleton] at hq
      subst hq
      exact hp
    rcases eq_or_ne cs [] with hcs0 | hcs0
    · subst hcs0
      have hstep : chunkLoop (p :: ps) (joinSep nl2 []) n = chunkLoop ps p n := by
        simp [chunkLoop, joinSep]
      rw [hstep]
      have ih := chunkLoop_join ps [p] n hps' hsing
      simpa [joinSep] using ih
    · obtain ⟨hne, hclean⟩ := clean_joinSep cs hcs0 hcs
      by_cases hbig : 1000 < (joinSep nl2 cs).length + p.length
      · have hstep : chunkLoop (p :: ps) (joinSep nl2 cs) n =
            ⟨n, pyStrip (joinSep nl2 cs)⟩ :: chunkLoop ps p (n + 1) := by
          rw [chunkLoop, if_pos ⟨hbig, hne⟩]
        rw [hstep]
        have ih := chunkLoop_join ps [p] (n + 1) hps' hsing
        simp only [joinSep] at ih
        have hrest : chunkLoop ps p (n + 1) ≠ [] :=
          chunkLoop_ne_nil ps p (n + 1) hp.1 (fun q hq => (hps' q hq).1)
        obtain ⟨r0, rrest, hr⟩ := List.exists_cons_of_ne_nil hrest
        rw [hr] at ih ⊢
        rw [joinSep_append nl2 cs (p :: ps) hcs0 (by simp)]
        show pyStrip (joinSep nl2 cs) ++ nl2 ++
            joinSep nl2 (Chunk.content r0 :: rrest.map Chunk.content) = _
        rw [hclean]
        rw [show joinSep nl2 ((r0 :: rrest).map Chunk.content) =
          joinSep nl2 (Chunk.content r0 :: rrest.map Chunk.content) from rfl] at ih
        rw [ih]
        simp
      · have hstep : chunkLoop (p :: ps) (joinSep nl2 cs) n =
            chunkLoop ps (joinSep nl2 cs ++ nl2 ++ p) n := by
          rw [chunkLoop, if_neg (fun hh => hbig hh.1)]
          rw [if_neg hne]
        rw [hstep]
        have hj : joinSep nl2 cs ++ nl2 ++ p = joinSep nl2 (cs ++ [p]) :=
          (joinSep_append nl2 cs [p] hcs0 (by simp)).symm
        rw [hj]
        have ih := chunkLoop_join ps (cs ++ [p]) n hps' (by
          intro q hq
          rcases List.mem_append.mp hq with h | h
          · exact hcs q h
          · rw [List.mem_singleton] at h
            subst h
            exact hp)
        rw [ih]
        simp [List.append_assoc]

/-! ## C9: reconstruction of the document from its chunks -/

/-- C9, counterexample.  Chunk contents are `strip()`ed when a buffer is
closed out, so edge whitespace of a paragraph at a chunk boundary is
lost: on the document `" a "` the single paragraph is `" a "` but the
single chunk's content is `"a"`, and rejoining the chunk contents with
the blank-line separator does not reproduce the original paragraphs. -/
theorem reconstruction_cex :
    paragraphs [' ', 'a', ' '] = [[' ', 'a', ' ']] ∧
    (parse_text_file [' ', 'a', ' ']).map Chunk.content = [['a']] ∧
    joinSep nl2 ((parse_text_file [' ', 'a', ' ']).map Chunk.content) ≠
      joinSep nl2 (paragraphs [' ', 'a', ' ']) :=
  ⟨by decide, by decide, by decide⟩

/-- C9, amended.  Provided every kept paragraph carries no leading or
trailing whitespace (so the chunk-level `strip()` cannot erase anything),
concatenating all chunk contents with the blank-line separator reinserted
between chunks reproduces exactly the kept paragraphs joined by
blank lines, in order, none dropped and none duplicated; in general the
reconstruction reproduces each paragraph only up to trimming of edge
whitespace at chunk boundaries. -/
theorem reconstruction_of_clean_paragraphs (content : List Char)
    (h : ∀ p ∈ paragraphs content, pyStrip p = p) :
    joinSep nl2 ((parse_text_file content).map Chunk.content) =
      joinSep nl2 (paragraphs content) := by
  have hps : ∀ p ∈ paragraphs content, p ≠ [] ∧ pyStrip p = p := by
    intro p hp
    refine ⟨?_, h p hp⟩
    have hf := (List.mem_filter.mp hp).2
    intro hnil
    subst hnil
    simp [pyStrip] at hf
  have hmain := chunkLoop_join (paragraphs content) [] 1 hps (by simp)
  simpa [parse_text_file, joinSep] using hmain

/-- Witness for `reconstruction_of_clean_paragraphs` at a concrete
input. -/
theorem reconstruction_of_clean_paragraphs_witness :
    (paragraphs ['a', 'a', '\n', '\n', 'b', 'b']).all
      (fun p => pyStrip p == p) = true ∧
    joinSep nl2 ((parse_text_file ['a', 'a', '\n', '\n', 'b', 'b']).map
      Chunk.content) = joinSep nl2 (paragraphs ['a', 'a', '\n', '\n', 'b', 'b']) :=
  ⟨by decide,
    reconstruction_of_clean_paragraphs ['a', 'a', '\n', '\n', 'b', 'b'] (by decide)⟩

/-! ## C3: the chunk-size bound -/

/-- The size invariant of the accumulation loop: every buffer that can
occur is empty, of length at most `1002`, or a single paragraph of the
document, so every emitted chunk content is (the strip of) a text of
length at most `1002` or of a single paragraph. -/
lemma chunkLoop_size (orig : List (List Char)) : ∀ (ps : List (List Char))
    (cur : List Char) (n : Nat),
    (∀ p ∈ ps, p ∈ orig) →
    (cur = [] ∨ cur.length ≤ 1002 ∨ cur ∈ orig) →
    ∀ c ∈ chunkLoop ps cur n,
      c.content.length ≤ 1002 ∨ ∃ p ∈ orig, c.content = pyStrip p
  | [], cur, n, _, hcur => by
    intro c hc
    rw [chunkLoop] at hc
    split at hc
    · simp at hc
    · rename_i hne
      rw [List.mem_singleton] at hc
      subst hc
      rcases hcur with h | h | h
      · exact absurd h hne
      · exact Or.inl (le_trans (pyStrip_length_le cur) h)
      · exact Or.inr ⟨cur, h, rfl⟩
  | p :: ps, cur, n, hps, hcur => by
    intro c hc
    have hporig : p ∈ orig := hps p (List.mem_cons_self _ _)
    have hps' : ∀ q ∈ ps, q ∈ orig := fun q hq => hps q (List.mem_cons_of_mem _ hq)
    rw [chunkLoop] at hc
    split at hc
    · rename_i hcond
      rcases List.mem_cons.mp hc with h | h
      · subst h
        rcases hcur with h | h | h
        · exact absurd h hcond.2
        · exact Or.inl (le_trans (pyStrip_length_le cur) h)
        · exact Or.inr ⟨cur, h, rfl⟩
      · exact chunkLoop_size orig ps p (n + 1) hps'
          (Or.inr (Or.inr hporig)) c h
    · rename_i hcond
      rcases eq_or_ne cur [] with hc0 | hc0
      · subst hc0
        rw [if_pos rfl] at hc
        exact chunkLoop_size orig ps p n hps' (Or.inr (Or.inr hporig)) c hc
      · rw [if_neg hc0] at hc
        have hlen : cur.length + p.length ≤ 1000 := by
          by_contra hgt
          exact hcond ⟨by omega, hc0⟩
        refine chunkLoop_size orig ps (cur ++ nl2 ++ p) n hps'
          (Or.inr (Or.inl ?_)) c hc
        simp only [List.length_append, nl2, List.length_cons, List.length_nil]
        omega

/-- C3, counterexample.  The buffer-closing test `len(cur) + len(p) >
1000` does not count the two-character blank-line separator inserted on
append, so a non-final chunk of several paragraphs, none longer than the
threshold, can reach length `1002 > 1000`: with paragraphs of lengths
500, 499 and 600, the first chunk has two paragraphs and length
`500 + 2 + 499 = 1001`. -/
theorem chunk_size_cex :
    (paragraphs (List.replicate 500 'a' ++ nl2 ++ List.replicate 499 'b' ++
      nl2 ++ List.replicate 600 'c')).map List.length = [500, 499, 600] ∧
    (parse_text_file (List.replicate 500 'a' ++ nl2 ++ List.replicate 499 'b' ++
      nl2 ++ List.replicate 600 'c')).map (fun c => c.content.length) =
      [1001, 600] ∧
    (parse_text_file (List.replicate 500 'a' ++ nl2 ++ List.replicate 499 'b' ++
      nl2 ++ List.replicate 600 'c')).map Chunk.content =
      [List.replicate 500 'a' ++ nl2 ++ List.replicate 499 'b',
        List.replicate 600 'c'] :=
  ⟨by decide, by decide, by decide⟩

/-- C3, amended.  Every chunk produced by the chunker (the final one
included) has content length at most `T + 2 = 1002` — the threshold plus
one uncounted two-character blank-line separator — unless the chunk
consists of a single paragraph whose own length exceeds `T = 1000`; such
an oversized paragraph is kept whole (up to the edge trim applied to
every chunk) in its own chunk, never split. -/
theorem chunk_size_bound (content : List Char) :
    ∀ c ∈ parse_text_file content,
      c.content.length ≤ 1002 ∨
      ∃ p ∈ paragraphs content, c.content = pyStrip p ∧ 1000 < p.length := by
  intro c hc
  have hmain := chunkLoop_size (paragraphs content) (paragraphs content) [] 1
    (fun p hp => hp) (Or.inl rfl) c hc
  rcases hmain with h | ⟨p, hp, he⟩
  · exact Or.inl h
  · by_cases hl : 1000 < p.length
    · exact Or.inr ⟨p, hp, he, hl⟩
    · left
      rw [he]
      have := pyStrip_length_le p
      omega

/-- Witness for `chunk_size_bound` at a concrete input. -/
theorem chunk_size_bound_witness :
    (⟨1, List.replicate 600 'a'⟩ : Chunk) ∈ parse_text_file docTwo ∧
    ((⟨1, List.replicate 600 'a'⟩ : Chunk).content.length ≤ 1002 ∨
      ∃ p ∈ paragraphs docTwo,
        (⟨1, List.replicate 600 'a'⟩ : Chunk).content = pyStrip p ∧
          1000 < p.length) :=
  ⟨by decide, chunk_size_bound docTwo ⟨1, List.replicate 600 'a'⟩ (by decide)⟩

end KB
